import Mathlib

/-!
Verification of the purchase-import core of `grocy_importer.py`.

The Python source is shallowly embedded: Python `float` money values are
modelled as exact rationals (`ℚ`), Python `str` as `String` compared by
code points, Python dictionaries as lookup functions into `Option`, and
raised exceptions as `Except`/`Option` results.
-/

/-! ## Stable insertion sort

Python's `sorted` is a stable sort; a stable sort w.r.t. a total preorder
is unique, so we embed it as a stable insertion sort over a boolean
comparison `le`.  `insertLe le x l` places `x` before the first element
`y` of `l` with `le x y`; with `foldr` this yields exactly the stable
sort of the input list. -/

def insertLe {α : Type} (le : α → α → Bool) (x : α) : List α → List α
  | [] => [x]
  | y :: ys => if le x y then x :: y :: ys else y :: insertLe le x ys

def insortLe {α : Type} (le : α → α → Bool) (l : List α) : List α :=
  l.foldr (insertLe le) []

/-! ## Python string comparison

Python compares `str` lexicographically by Unicode code point.  The
built-in `String ≤` of Lean agrees but does not reduce in the kernel, so
we use an executable lexicographic comparison on the character lists. -/

def lexLe : List Char → List Char → Bool
  | [], _ => true
  | _ :: _, [] => false
  | a :: as, b :: bs => if a = b then lexLe as bs else decide (a < b)

def pyStrLe (a b : String) : Bool := lexLe a.data b.data

/-! ## Purchases and the aggregator `simplify`

Source: `grocy_importer.py`, lines 463-503.  A `Purchase` stores the
*total* price of the line, not the unit price. -/

structure Purchase where
  amount : ℚ
  price : ℚ
  name : String
deriving Repr, DecidableEq

def purchaseNameLe (p q : Purchase) : Bool := pyStrLe p.name q.name

/-- Key test used by `itertools.groupby`: same `(name, price)` pair. -/
def sameKey (p q : Purchase) : Bool := decide (q.name = p.name ∧ q.price = p.price)

/-- The `groupby`-and-sum part of `simplify`: the (already sorted) input
is consumed in maximal runs of equal `(name, price)` key — exactly what
`itertools.groupby` does.  `p` is the head of the current run, `acc` the
amount accumulated so far for that run.  When a run ends, it becomes one
`Purchase` carrying the summed amount and the run's shared price and
name, kept only when the price is non-negative
(`if float(price) >= 0`). -/
def simplifyRuns (p : Purchase) (acc : ℚ) : List Purchase → List Purchase
  | [] => if 0 ≤ p.price then [⟨acc, p.price, p.name⟩] else []
  | q :: qs =>
    if sameKey p q then simplifyRuns p (acc + q.amount) qs
    else (if 0 ≤ p.price then [⟨acc, p.price, p.name⟩] else [])
      ++ simplifyRuns q q.amount qs

/-- `simplify` from `grocy_importer.py:474-503`:
`sorted(items, key=lambda p: p.name)` (stable, by name only) followed by
`groupby(..., lambda p: (p.name, p.price))` — which groups consecutive
elements of equal key — summing amounts per group and keeping only
groups with non-negative price. -/
def simplify (items : List Purchase) : List Purchase :=
  match insortLe purchaseNameLe items with
  | [] => []
  | p :: ps => simplifyRuns p p.amount ps

/-- Total purchased amount carried by lines with the given
`(name, price)` key. -/
def keyAmount (name : String) (price : ℚ) (l : List Purchase) : ℚ :=
  ((l.filter (fun p => decide (p.name = name ∧ p.price = price))).map Purchase.amount).sum

/-! ## Unit conversion

Source: `grocy_importer.py`, lines 1582-1631 (`convert_unit`) and the
`GrocyQUnitConvertion` record (lines 115-121; the unused `id` field is
omitted). -/

structure GrocyQUnitConvertion where
  from_qu_id : ℕ
  to_qu_id : ℕ
  product_id : Option ℕ
  factor : ℚ
deriving Repr, DecidableEq

/-- The `UserError` raised by `convert_unit`; its message names the two
unit ids and the product id. -/
structure UnitConversionError where
  from_qu_id : ℕ
  to_qu_id : ℕ
  product_id : Option ℕ
deriving Repr, DecidableEq

/-- The list comprehension inside `convert_unit`: entries for the
`(from, to)` pair whose `product_id` is `None` or the given one. -/
def matchingConversions (convertions : List GrocyQUnitConvertion)
    (from_qu_id to_qu_id : ℕ) (product_id : Option ℕ) :
    List GrocyQUnitConvertion :=
  convertions.filter (fun c =>
    decide (c.from_qu_id = from_qu_id) && decide (c.to_qu_id = to_qu_id) &&
    (decide (c.product_id = none) || decide (c.product_id = product_id)))

/-- Comparison used by `sorted(..., key=lambda o: o['product_id'] is None)`:
`False < True`, i.e. entries with a concrete `product_id` sort first. -/
def convLe (c d : GrocyQUnitConvertion) : Bool :=
  !(decide (c.product_id = none)) || decide (d.product_id = none)

/-- `convert_unit` from `grocy_importer.py:1582-1631`: `1` when the two
unit ids coincide; otherwise the factor of the first matching entry
after the stable sort putting product-specific entries first; raising
`UserError` (modelled as `Except.error`) when no entry matches. -/
def convert_unit (convertions : List GrocyQUnitConvertion)
    (from_qu_id to_qu_id : ℕ) (product_id : Option ℕ) :
    Except UnitConversionError ℚ :=
  if from_qu_id = to_qu_id then .ok 1
  else
    match insortLe convLe
        (matchingConversions convertions from_qu_id to_qu_id product_id) with
    | [] => .error ⟨from_qu_id, to_qu_id, product_id⟩
    | c :: _ => .ok c.factor

/-! ## The import pipeline of `Store.import_purchase`

Source: `grocy_importer.py`, lines 564-606.  The records below carry
exactly the fields that `import_purchase` reads (`GrocyProductBarCode`
also has `id`, `barcode`, `shopping_location_id` and `note`;
`GrocyProduct` also has `id`, `name`, `qu_factor_purchase_to_stock`,
`product_group_id` and `location_id` — all unused here). -/

structure GrocyProductBarCode where
  product_id : ℕ
  qu_id : ℕ
  amount : ℚ
deriving Repr, DecidableEq

structure GrocyProduct where
  qu_id_stock : ℕ
deriving Repr, DecidableEq

/-- One call to `GrocyApi.purchase(product_id, amount, price,
shopping_location_id)` (`grocy_importer.py:386-401`). -/
structure SubmitCall where
  product_id : ℕ
  amount : ℚ
  price : ℚ
  shopping_location_id : ℕ
deriving Repr, DecidableEq

/-- The exceptions that can escape `import_purchase` after the
reconciliation loop: a `KeyError` on the barcode map, a `KeyError` on
the product map, the `UserError` of `convert_unit`, or a failed
`POST /stock/products/{id}/add` (`assert_valid_response`). -/
inductive ImportError where
  | missingBarcode (name : String)
  | missingProduct (product_id : ℕ)
  | unitConversion (e : UnitConversionError)
  | submission (call : SubmitCall)
deriving Repr, DecidableEq

/-- The body of the first `for item in groceries` loop of
`import_purchase` (`grocy_importer.py:583-603`): look the item's name up
in the barcode map, look the product up, compute the conversion factor,
and build the pending `grocy.purchase` call
`(product_id, item.amount * pro['amount'] * factor, item.price / item.amount,
shopping_location)`.  Division on `ℚ` is total; the source would raise
`ZeroDivisionError` for `item.amount = 0`, which no claim exercises. -/
def prepareItem (convertions : List GrocyQUnitConvertion)
    (barcodes : String → Option GrocyProductBarCode)
    (products : ℕ → Option GrocyProduct)
    (shopping_location : ℕ) (item : Purchase) :
    Except ImportError SubmitCall :=
  match barcodes item.name with
  | none => .error (.missingBarcode item.name)
  | some pro =>
    match products pro.product_id with
    | none => .error (.missingProduct pro.product_id)
    | some prod =>
      match convert_unit convertions pro.qu_id prod.qu_id_stock (some pro.product_id) with
      | .error e => .error (.unitConversion e)
      | .ok f =>
        .ok ⟨pro.product_id, item.amount * pro.amount * f,
             item.price / item.amount, shopping_location⟩

/-- The first loop of `import_purchase` in full: build the list
`grocy_purchases` of pending calls, aborting at the first failing item
(the `except Exception: ... raise`). -/
def prepare (convertions : List GrocyQUnitConvertion)
    (barcodes : String → Option GrocyProductBarCode)
    (products : ℕ → Option GrocyProduct)
    (shopping_location : ℕ) :
    List Purchase → Except ImportError (List SubmitCall)
  | [] => .ok []
  | item :: rest =>
    match prepareItem convertions barcodes products shopping_location item with
    | .error e => .error e
    | .ok c =>
      match prepare convertions barcodes products shopping_location rest with
      | .error e => .error e
      | .ok cs => .ok (c :: cs)

/-- The second loop of `import_purchase`
(`for func, item in zip(grocy_purchases, groceries): func()`,
lines 604-606): execute the pending calls one at a time, in order.
`ok i` tells whether the catalog accepts the `i`-th write (`False`
meaning `assert_valid_response` raises).  The result is the list of
writes the catalog has accepted — a failed write aborts the rest and
nothing is rolled back — together with the error, if any. -/
def submitCalls (ok : ℕ → Bool) : List SubmitCall → ℕ → List SubmitCall × Option ImportError
  | [], _ => ([], none)
  | c :: cs, i =>
    if ok i then
      match submitCalls ok cs (i + 1) with
      | (done, err) => (c :: done, err)
    else ([], some (.submission c))

/-- `import_purchase` after the reconciliation loop
(`grocy_importer.py:581-606`): prepare all pending calls, then submit
them sequentially.  Returns the writes the catalog recorded and the
error that aborted the run, if any. -/
def importPurchase (convertions : List GrocyQUnitConvertion)
    (barcodes : String → Option GrocyProductBarCode)
    (products : ℕ → Option GrocyProduct)
    (shopping_location : ℕ) (ok : ℕ → Bool) (groceries : List Purchase) :
    List SubmitCall × Option ImportError :=
  match prepare convertions barcodes products shopping_location groceries with
  | .error e => ([], some e)
  | .ok calls => submitCalls ok calls 0

/-! ## The reconciliation loop

Source: `grocy_importer.py`, lines 569-580:

    barcodes = grocy.get_all_product_barcodes()
    while any(unknown_items := [str(item) for item in groceries
                                if item.name not in barcodes]):
        print(...); input('...')
        barcodes = grocy.get_all_product_barcodes()

`fetches i name` tells whether the alias map returned by the `i`-th
fetch (the initial fetch being `i = 0`) contains `name`; `str(item)` is
never the empty string, so `any(unknown_items)` is exactly "some
purchase name is absent".  The loop body is a blocking prompt followed
by a re-fetch; we model the loop with fuel (the source loop is
unbounded) and return the fetch index at which it exits — which equals
the number of prompts issued. -/
def reconcileLoop (fetches : ℕ → String → Bool) (names : List String) :
    ℕ → ℕ → Option ℕ
  | 0, _ => none
  | fuel + 1, i =>
    if names.all (fun n => fetches i n) then some i
    else reconcileLoop fetches names fuel (i + 1)

/-! ## The PDF till-receipt extractor `Ebon._get_purchases`

Source: `grocy_importer.py`, lines 691-738.  Each line after the first
is matched against

    ^(?:(\d+)x \d+,\d\d\s+)?(.*?)\s+(\d+,\d\d)\s+[12]

via `re.search` (the `^` anchors the match at the line start).  The
functions below implement exactly this pattern with Python's
backtracking order.  Inside it, every `\d+` is followed by a
non-digit atom and every `\s+` except the one closing the optional
group is followed by a non-whitespace atom, so for those maximal munch
is the unique possible behaviour; the two genuine choice points — the
optional group (greedy: tried with the group first) and the lazy
`(.*?)` (shortest first) — and the backtrackable `\s+` closing the
optional group (longest first) are realised as ordered searches. -/

def digitVal (c : Char) : ℕ := c.toNat - '0'.toNat

/-- `\d+` with maximal munch: the value of the leading digit run and the
remainder; `none` when there is no leading digit. -/
def matchDigits (cs : List Char) : Option (ℕ × List Char) :=
  let ds := cs.takeWhile Char.isDigit
  if ds.isEmpty then none
  else some (ds.foldl (fun a c => 10 * a + digitVal c) 0, cs.dropWhile Char.isDigit)

/-- Decimal value `ip + cents/100` of a matched `\d+,\d\d` token — the
rational equal to Python's `float(group.replace(',', '.'))`. -/
def priceVal (ip cents : ℕ) : ℚ := (ip : ℚ) + (cents : ℚ) / 100

/-- `\d+,\d\d` (an integer part, a comma, exactly two digits): its
decimal value and the remainder. -/
def matchPriceTok (cs : List Char) : Option (ℚ × List Char) :=
  match matchDigits cs with
  | none => none
  | some (ip, rest) =>
    match rest with
    | ',' :: d1 :: d2 :: rest2 =>
      if d1.isDigit && d2.isDigit then
        some (priceVal ip (10 * digitVal d1 + digitVal d2), rest2)
      else none
    | _ => none

/-- `\s+` with maximal munch (valid whenever the next atom cannot match
whitespace): the remainder after the whitespace run, requiring at least
one whitespace character. -/
def matchSpaces1 : List Char → Option (List Char)
  | [] => none
  | c :: cs =>
    if c.isWhitespace then some ((c :: cs).dropWhile Char.isWhitespace) else none

/-- The tail `\s+(\d+,\d\d)\s+[12]` of the pattern, anchored at the
start of `cs`; returns the captured line total (group 3).  Nothing
follows `[12]` in the pattern, so trailing characters are ignored. -/
def matchTrail (cs : List Char) : Option ℚ :=
  match matchSpaces1 cs with
  | none => none
  | some r1 =>
    match matchPriceTok r1 with
    | none => none
    | some (price, r2) =>
      match matchSpaces1 r2 with
      | none => none
      | some r3 =>
        match r3 with
        | c :: _ => if c = '1' ∨ c = '2' then some price else none
        | [] => none

/-- `(.*?)\s+(\d+,\d\d)\s+[12]`: the lazy group tries the shortest name
first (`.` cannot match a newline, and the lines fed to the regex
contain none); returns the captured name (group 2) and line total. -/
def matchBody (cs : List Char) : Option (String × ℚ) :=
  (List.range (cs.length + 1)).findSome? (fun n =>
    (matchTrail (cs.drop n)).map (fun price => (String.mk (cs.take n), price)))

/-- The pattern with the optional group present:
`(\d+)x \d+,\d\d\s+` followed by the rest of the pattern.  The closing
`\s+` is greedy but the lazy group after it can also match whitespace,
so all run lengths are tried, longest first; returns name, line total
and the multiplier (group 1). -/
def matchMult (cs : List Char) : Option (String × ℚ × ℕ) :=
  match matchDigits cs with
  | none => none
  | some (mult, r1) =>
    match r1 with
    | 'x' :: ' ' :: r2 =>
      match matchPriceTok r2 with
      | none => none
      | some (_, r3) =>
        let w := (r3.takeWhile Char.isWhitespace).length
        (List.range w).findSome? (fun i =>
          (matchBody (r3.drop (w - i))).map (fun np => (np.1, np.2, mult)))
    | _ => none

/-- `re.search` of the full pattern on one line, yielding the
`Purchase(int(group(1) or 1), float(group(3)...), group(2))` of
`grocy_importer.py:736-738`; `none` when the line does not match (the
`assert match_ is not None` fails).  The optional group is greedy: the
alternative with the group present is tried first. -/
def parseEbonLine (cs : List Char) : Option Purchase :=
  match matchMult cs with
  | some (nm, pr, mult) => some ⟨(mult : ℚ), pr, nm⟩
  | none =>
    match matchBody cs with
    | some (nm, pr) => some ⟨((1 : ℕ) : ℚ), pr, nm⟩
    | none => none

/-- `startsWithList pat cs` is true when `pat` is an initial segment of
`cs` (Python's `line.startswith(...)`). -/
def startsWithList : List Char → List Char → Bool
  | [], _ => true
  | _ :: _, [] => false
  | a :: as, b :: bs => a = b && startsWithList as bs

/-- Split a character list at every `'\n'`. -/
def splitOnNl : List Char → List (List Char)
  | [] => [[]]
  | c :: cs =>
    if c = '\n' then [] :: splitOnNl cs
    else
      match splitOnNl cs with
      | [] => [[c]]
      | g :: gs => (c :: g) :: gs

/-- Python `str.splitlines` for `\n`-separated text: split on `'\n'`,
with no empty final piece for a trailing newline. -/
def splitlinesPy (s : List Char) : List (List Char) :=
  let parts := splitOnNl s
  if parts.getLast? = some [] then parts.dropLast else parts

/-- The `for line in ebon.splitlines()[1:]` loop of `_get_purchases`
applied to the lines after the first: stop at the first line starting
with `'SUMME '`, skip empty lines, parse every other line (a failed
parse is the `assert`, modelled as `none`). -/
def purchLines : List (List Char) → Option (List Purchase)
  | [] => some []
  | l :: rest =>
    if startsWithList "SUMME ".data l then some []
    else if l.length = 0 then purchLines rest
    else
      match parseEbonLine l with
      | none => none
      | some p => (purchLines rest).map (fun ps => p :: ps)

/-- Parse every line, failing if any line fails — used to state what the
loop does to the lines it keeps. -/
def parseAll : List (List Char) → Option (List Purchase)
  | [] => some []
  | l :: ls =>
    match parseEbonLine l with
    | none => none
    | some p => (parseAll ls).map (fun ps => p :: ps)

/-- `Ebon._get_purchases` (`grocy_importer.py:691-738`) on the extracted
page text. -/
def Ebon_get_purchases (ebon : String) : Option (List Purchase) :=
  purchLines ((splitlinesPy ebon.data).drop 1)

/-- The three-item example receipt from the `_get_purchases` doctest
(`grocy_importer.py:711-721`). -/
def dmReceipt : String :=
  "09.02.2023  18:24  3022/1  328288/3   2656\n\nKodak Artikel Sofort               0,10  1\n\n4x 1,25 dmBio Milch 1,5% 1L        5,00  2\n\n2x 1,95 Dental Delight ZC Pola     3,90  1\n\nSUMME EUR                          9,00\n"

/-- The multiplier-prefixed line of that receipt. -/
def dmMilkLine : String := "4x 1,25 dmBio Milch 1,5% 1L        5,00  2"

/-! ## Properties of the stable insertion sort -/

theorem insertLe_perm {α : Type} (le : α → α → Bool) (x : α) (l : List α) :
    (insertLe le x l).Perm (x :: l) := by
  induction l with
  | nil => exact List.Perm.refl _
  | cons y ys ih =>
    by_cases h : le x y
    · simp [insertLe, h]
    · simp only [insertLe, h, if_false]
      exact (ih.cons y).trans (List.Perm.swap x y ys)

theorem insortLe_perm {α : Type} (le : α → α → Bool) (l : List α) :
    (insortLe le l).Perm l := by
  induction l with
  | nil => exact List.Perm.refl _
  | cons x xs ih => exact (insertLe_perm le x _).trans (ih.cons x)

theorem insertLe_pairwise {α : Type} {le : α → α → Bool}
    (htrans : ∀ a b c, le a b = true → le b c = true → le a c = true)
    (htotal : ∀ a b, le a b = true ∨ le b a = true)
    (x : α) {l : List α} (hl : l.Pairwise (fun a b => le a b = true)) :
    (insertLe le x l).Pairwise (fun a b => le a b = true) := by
  induction l with
  | nil => simp [insertLe]
  | cons y ys ih =>
    rw [List.pairwise_cons] at hl
    by_cases h : le x y
    · simp only [insertLe, h, if_true]
      rw [List.pairwise_cons]
      refine ⟨?_, List.pairwise_cons.mpr hl⟩
      intro b hb
      rcases List.mem_cons.mp hb with hb | hb
      · exact hb ▸ h
      · exact htrans x y b h (hl.1 b hb)
    · have hyx : le y x = true := (htotal x y).resolve_left h
      simp only [insertLe, h, Bool.false_eq_true, if_false]
      rw [List.pairwise_cons]
      refine ⟨?_, ih hl.2⟩
      intro b hb
      rcases List.mem_cons.mp ((insertLe_perm le x ys).mem_iff.mp hb) with hb | hb
      · exact hb ▸ hyx
      · exact hl.1 b hb

theorem insortLe_pairwise {α : Type} {le : α → α → Bool}
    (htrans : ∀ a b c, le a b = true → le b c = true → le a c = true)
    (htotal : ∀ a b, le a b = true ∨ le b a = true)
    (l : List α) :
    (insortLe le l).Pairwise (fun a b => le a b = true) := by
  induction l with
  | nil => exact List.Pairwise.nil
  | cons x xs ih => exact insertLe_pairwise htrans htotal x ih

/-! ## Properties of the Python string order -/

theorem lexLe_total : ∀ a b : List Char, lexLe a b = true ∨ lexLe b a = true
  | [], _ => Or.inl rfl
  | _ :: _, [] => Or.inr rfl
  | a :: as, b :: bs => by
    by_cases h : a = b
    · simpa [lexLe, h] using lexLe_total as bs
    · rcases lt_or_gt_of_ne h with hlt | hgt
      · exact Or.inl (by simp [lexLe, h, hlt])
      · exact Or.inr (by simp [lexLe, Ne.symm h, hgt])

theorem lexLe_trans :
    ∀ a b c : List Char, lexLe a b = true → lexLe b c = true → lexLe a c = true
  | [], _, _ => by intro _ _; rfl
  | _ :: _, [], _ => by intro h _; exact absurd h (by simp [lexLe])
  | _ :: _, _ :: _, [] => by intro _ h; exact absurd h (by simp [lexLe])
  | a :: as, b :: bs, c :: cs => by
    intro h1 h2
    simp only [lexLe] at h1 h2 ⊢
    by_cases hab : a = b
    · rw [if_pos hab] at h1
      by_cases hbc : b = c
      · rw [if_pos hbc] at h2
        rw [if_pos (hab.trans hbc)]
        exact lexLe_trans as bs cs h1 h2
      · rw [if_neg hbc] at h2
        have hac : a < c := hab.symm ▸ of_decide_eq_true h2
        rw [if_neg (ne_of_lt hac)]
        exact decide_eq_true hac
    · rw [if_neg hab] at h1
      by_cases hbc : b = c
      · have hac : a < c := hbc ▸ of_decide_eq_true h1
        rw [if_neg (ne_of_lt hac)]
        exact decide_eq_true hac
      · rw [if_neg hbc] at h2
        have hac : a < c := lt_trans (of_decide_eq_true h1) (of_decide_eq_true h2)
        rw [if_neg (ne_of_lt hac)]
        exact decide_eq_true hac

theorem lexLe_antisymm :
    ∀ a b : List Char, lexLe a b = true → lexLe b a = true → a = b
  | [], [] => by intro _ _; rfl
  | [], _ :: _ => by intro _ h; exact absurd h (by simp [lexLe])
  | _ :: _, [] => by intro h _; exact absurd h (by simp [lexLe])
  | a :: as, b :: bs => by
    intro h1 h2
    simp only [lexLe] at h1 h2
    by_cases hab : a = b
    · subst hab
      rw [if_pos rfl] at h1 h2
      exact congrArg (List.cons a) (lexLe_antisymm as bs h1 h2)
    · rw [if_neg hab] at h1
      rw [if_neg (Ne.symm hab)] at h2
      exact absurd (of_decide_eq_true h2) (not_lt_of_gt (of_decide_eq_true h1))

theorem pyStrLe_trans (a b c : String) (h1 : pyStrLe a b = true)
    (h2 : pyStrLe b c = true) : pyStrLe a c = true :=
  lexLe_trans a.data b.data c.data h1 h2

theorem pyStrLe_total (a b : String) : pyStrLe a b = true ∨ pyStrLe b a = true :=
  lexLe_total a.data b.data

theorem pyStrLe_antisymm (a b : String) (h1 : pyStrLe a b = true)
    (h2 : pyStrLe b a = true) : a = b := by
  cases a with
  | mk da =>
    cases b with
    | mk db => exact congrArg String.mk (lexLe_antisymm da db h1 h2)

/-! ## Aggregation preserves per-key amounts -/

theorem keyAmount_cons (n : String) (pr : ℚ) (p : Purchase) (l : List Purchase) :
    keyAmount n pr (p :: l)
      = (if p.name = n ∧ p.price = pr then p.amount else 0) + keyAmount n pr l := by
  by_cases h : p.name = n ∧ p.price = pr
  · simp [keyAmount, List.filter_cons, h]
  · simp [keyAmount, List.filter_cons, h]

theorem keyAmount_append (n : String) (pr : ℚ) (l1 l2 : List Purchase) :
    keyAmount n pr (l1 ++ l2) = keyAmount n pr l1 + keyAmount n pr l2 := by
  simp [keyAmount, List.filter_append]

theorem keyAmount_perm (n : String) (pr : ℚ) {l1 l2 : List Purchase}
    (h : l1.Perm l2) : keyAmount n pr l1 = keyAmount n pr l2 :=
  ((h.filter _).map _).sum_eq

theorem simplifyRuns_keyAmount (n : String) (pr : ℚ) (hpr : 0 ≤ pr) :
    ∀ (ps : List Purchase) (p : Purchase) (acc : ℚ),
      keyAmount n pr (simplifyRuns p acc ps)
        = (if p.name = n ∧ p.price = pr then acc else 0) + keyAmount n pr ps := by
  intro ps
  induction ps with
  | nil =>
    intro p acc
    by_cases hp : 0 ≤ p.price
    · simp only [simplifyRuns, hp, if_true]
      by_cases h : p.name = n ∧ p.price = pr
      · simp [keyAmount, List.filter_cons, h]
      · simp [keyAmount, List.filter_cons, h]
    · have h : ¬(p.name = n ∧ p.price = pr) := by
        rintro ⟨-, hpp⟩
        exact hp (hpp ▸ hpr)
      simp [simplifyRuns, hp, keyAmount, h]
  | cons q qs ih =>
    intro p acc
    by_cases hk : sameKey p q = true
    · have hq : q.name = p.name ∧ q.price = p.price := of_decide_eq_true hk
      simp only [simplifyRuns, hk, if_true]
      rw [ih p (acc + q.amount), keyAmount_cons]
      have : (q.name = n ∧ q.price = pr) ↔ (p.name = n ∧ p.price = pr) := by
        rw [hq.1, hq.2]
      rw [if_congr this rfl rfl]
      by_cases h : p.name = n ∧ p.price = pr
      · rw [if_pos h, if_pos h, if_pos h]; ring
      · rw [if_neg h, if_neg h, if_neg h]; ring
    · simp only [simplifyRuns, hk, Bool.false_eq_true, if_false]
      rw [keyAmount_append, ih q q.amount, keyAmount_cons]
      have hemit : keyAmount n pr (if 0 ≤ p.price then [⟨acc, p.price, p.name⟩] else [])
          = (if p.name = n ∧ p.price = pr then acc else 0) := by
        by_cases hp : 0 ≤ p.price
        · simp only [hp, if_true]
          by_cases h : p.name = n ∧ p.price = pr
          · simp [keyAmount, List.filter_cons, h]
          · simp [keyAmount, List.filter_cons, h]
        · have h : ¬(p.name = n ∧ p.price = pr) := by
            rintro ⟨-, hpp⟩
            exact hp (hpp ▸ hpr)
          simp [hp, keyAmount, h]
      rw [hemit]

theorem simplify_keyAmount (items : List Purchase) (n : String) (pr : ℚ)
    (hpr : 0 ≤ pr) : keyAmount n pr (simplify items) = keyAmount n pr items := by
  have hperm : keyAmount n pr (insortLe purchaseNameLe items) = keyAmount n pr items :=
    keyAmount_perm n pr (insortLe_perm purchaseNameLe items)
  unfold simplify
  cases h : insortLe purchaseNameLe items with
  | nil => rw [h] at hperm; simpa [keyAmount] using hperm
  | cons p ps =>
    rw [h] at hperm
    rw [simplifyRuns_keyAmount n pr hpr ps p p.amount, ← keyAmount_cons, hperm]

theorem simplifyRuns_price_nonneg :
    ∀ (ps : List Purchase) (p : Purchase) (acc : ℚ) (q : Purchase),
      q ∈ simplifyRuns p acc ps → 0 ≤ q.price := by
  intro ps
  induction ps with
  | nil =>
    intro p acc q hq
    by_cases hp : 0 ≤ p.price
    · simp only [simplifyRuns, hp, if_true, List.mem_singleton] at hq
      rw [hq]
      exact hp
    · simp [simplifyRuns, hp] at hq
  | cons r rs ih =>
    intro p acc q hq
    by_cases hk : sameKey p r = true
    · simp only [simplifyRuns, hk, if_true] at hq
      exact ih p (acc + r.amount) q hq
    · simp only [simplifyRuns, hk, Bool.false_eq_true, if_false,
        List.mem_append] at hq
      rcases hq with hq | hq
      · by_cases hp : 0 ≤ p.price
        · simp only [hp, if_true, List.mem_singleton] at hq
          rw [hq]
          exact hp
        · simp [hp] at hq
      · exact ih r r.amount q hq

theorem simplify_price_nonneg (items : List Purchase) (q : Purchase)
    (hq : q ∈ simplify items) : 0 ≤ q.price := by
  unfold simplify at hq
  cases h : insortLe purchaseNameLe items with
  | nil => rw [h] at hq; simp at hq
  | cons p ps =>
    rw [h] at hq
    exact simplifyRuns_price_nonneg ps p p.amount q hq

/-! ## Unit conversion lemmas -/

theorem convLe_trans (a b c : GrocyQUnitConvertion)
    (h1 : convLe a b = true) (h2 : convLe b c = true) : convLe a c = true := by
  unfold convLe at h1 h2 ⊢
  cases ha : decide (a.product_id = none) <;>
    cases hb : decide (b.product_id = none) <;>
      cases hc : decide (c.product_id = none) <;>
        simp_all

theorem convLe_total (a b : GrocyQUnitConvertion) :
    convLe a b = true ∨ convLe b a = true := by
  unfold convLe
  cases ha : decide (a.product_id = none) <;>
    cases hb : decide (b.product_id = none) <;> simp_all

theorem insortLe_head_min {α : Type} {le : α → α → Bool}
    (htrans : ∀ a b c, le a b = true → le b c = true → le a c = true)
    (htotal : ∀ a b, le a b = true ∨ le b a = true)
    {l : List α} {c : α} {rest : List α} (h : insortLe le l = c :: rest) :
    ∀ d ∈ l, le c d = true := by
  intro d hd
  have hmem : d ∈ c :: rest := h ▸ (insortLe_perm le l).symm.subset hd
  rcases List.mem_cons.mp hmem with rfl | hdrest
  · exact (htotal d d).elim id id
  · have hp := insortLe_pairwise htrans htotal l
    rw [h, List.pairwise_cons] at hp
    exact hp.1 d hdrest

/-! ## Submission and preparation lemmas -/

theorem submitCalls_take (ok : ℕ → Bool) :
    ∀ (cs : List SubmitCall) (i k : ℕ) (hk : k < cs.length),
      (∀ j, j < k → ok (i + j) = true) → ok (i + k) = false →
      submitCalls ok cs i
        = (cs.take k, some (.submission (cs.get ⟨k, hk⟩))) := by
  intro cs
  induction cs with
  | nil =>
    intro i k hk _ _
    exact absurd hk (Nat.not_lt_zero k)
  | cons c cs ih =>
    intro i k hk hprev hfail
    cases k with
    | zero =>
      have hf : ok i = false := by simpa using hfail
      simp [submitCalls, hf]
    | succ k =>
      have h0 : ok i = true := by simpa using hprev 0 (Nat.succ_pos k)
      have hk2 : k < cs.length := Nat.lt_of_succ_lt_succ hk
      have hprev2 : ∀ j, j < k → ok (i + 1 + j) = true := by
        intro j hj
        have := hprev (j + 1) (Nat.succ_lt_succ hj)
        simpa [Nat.add_assoc, Nat.add_comm 1 j] using this
      have hfail2 : ok (i + 1 + k) = false := by
        simpa [Nat.add_assoc, Nat.add_comm 1 k] using hfail
      simp [submitCalls, h0, ih (i + 1) k hk2 hprev2 hfail2]

theorem submitCalls_error_shape (ok : ℕ → Bool) :
    ∀ (cs : List SubmitCall) (i : ℕ),
      (submitCalls ok cs i).2 = none ∨
      ∃ c, (submitCalls ok cs i).2 = some (.submission c) := by
  intro cs
  induction cs with
  | nil => intro i; exact Or.inl rfl
  | cons c cs ih =>
    intro i
    by_cases h : ok i = true
    · simpa [submitCalls, h] using ih (i + 1)
    · have h' : ok i = false := by simpa using h
      exact Or.inr ⟨c, by simp [submitCalls, h']⟩

theorem prepare_get (convs : List GrocyQUnitConvertion)
    (barcodes : String → Option GrocyProductBarCode)
    (products : ℕ → Option GrocyProduct) (loc : ℕ) :
    ∀ (groceries : List Purchase) (calls : List SubmitCall),
      prepare convs barcodes products loc groceries = .ok calls →
      calls.length = groceries.length ∧
      ∀ i (hi : i < groceries.length) (hc : i < calls.length),
        ∃ pro prod f,
          barcodes (groceries.get ⟨i, hi⟩).name = some pro ∧
          products pro.product_id = some prod ∧
          convert_unit convs pro.qu_id prod.qu_id_stock (some pro.product_id)
            = .ok f ∧
          calls.get ⟨i, hc⟩
            = ⟨pro.product_id,
               (groceries.get ⟨i, hi⟩).amount * pro.amount * f,
               (groceries.get ⟨i, hi⟩).price / (groceries.get ⟨i, hi⟩).amount,
               loc⟩ := by
  intro groceries
  induction groceries with
  | nil =>
    intro calls h
    simp only [prepare] at h
    cases h
    exact ⟨rfl, fun i hi => absurd hi (Nat.not_lt_zero i)⟩
  | cons item rest ih =>
    intro calls h
    simp only [prepare] at h
    cases hpi : prepareItem convs barcodes products loc item with
    | error e => rw [hpi] at h; cases h
    | ok c =>
      rw [hpi] at h
      cases hr : prepare convs barcodes products loc rest with
      | error e => rw [hr] at h; cases h
      | ok cs =>
        rw [hr] at h
        cases h
        obtain ⟨hl, hget⟩ := ih cs hr
        refine ⟨by simp [hl], ?_⟩
        intro i hi hc
        cases i with
        | zero =>
          unfold prepareItem at hpi
          cases hb : barcodes item.name with
          | none =>
            simp only [hb] at hpi
            exact Except.noConfusion hpi
          | some pro =>
            simp only [hb] at hpi
            cases hprod : products pro.product_id with
            | none =>
              simp only [hprod] at hpi
              exact Except.noConfusion hpi
            | some prod =>
              simp only [hprod] at hpi
              cases hcu : convert_unit convs pro.qu_id prod.qu_id_stock
                  (some pro.product_id) with
              | error e =>
                simp only [hcu] at hpi
                exact Except.noConfusion hpi
              | ok f =>
                simp only [hcu, Except.ok.injEq] at hpi
                exact ⟨pro, prod, f, hb, hprod, hcu, hpi.symm⟩
        | succ i =>
          exact hget i (Nat.lt_of_succ_lt_succ hi) (Nat.lt_of_succ_lt_succ hc)

/-! ## Reconciliation loop lemmas -/

theorem reconcileLoop_invariant (fetches : ℕ → String → Bool)
    (names : List String) :
    ∀ (fuel i k : ℕ), reconcileLoop fetches names fuel i = some k →
      i ≤ k ∧ names.all (fetches k) = true ∧
      ∀ j, i ≤ j → j < k → names.all (fetches j) = false := by
  intro fuel
  induction fuel with
  | zero => intro i k h; cases h
  | succ fuel ih =>
    intro i k h
    by_cases hc : names.all (fun n => fetches i n) = true
    · simp only [reconcileLoop, hc, if_true, Option.some.injEq] at h
      subst h
      exact ⟨Nat.le_refl i, hc, fun j h1 h2 => absurd h1 (Nat.not_le_of_lt h2)⟩
    · simp only [reconcileLoop, hc, if_false] at h
      obtain ⟨h1, h2, h3⟩ := ih (i + 1) k h
      refine ⟨Nat.le_of_succ_le h1, h2, ?_⟩
      intro j hj1 hj2
      rcases Nat.lt_or_ge j (i + 1) with hj3 | hj3
      · have : j = i := Nat.le_antisymm (Nat.lt_succ_iff.mp hj3) hj1
        subst this
        exact Bool.eq_false_iff.mpr hc
      · exact h3 j hj3 hj2

/-! ## The receipt line loop as a pipeline -/

theorem purchLines_pipeline (lines : List (List Char)) :
    purchLines lines
      = parseAll ((lines.takeWhile
          (fun l => !(startsWithList "SUMME ".data l))).filter
          (fun l => !(decide (l.length = 0)))) := by
  induction lines with
  | nil => rfl
  | cons l rest ih =>
    by_cases hs : startsWithList "SUMME ".data l = true
    · simp [purchLines, hs, List.takeWhile_cons, parseAll]
    · have hs' : startsWithList "SUMME ".data l = false := by simpa using hs
      by_cases hz : l.length = 0
      · have hz' : l = [] := List.length_eq_zero.mp hz
        simp [purchLines, hs', hz', List.takeWhile_cons, List.filter_cons, ih,
          startsWithList]
      · have hz' : l ≠ [] := by
          intro h
          exact hz (by simp [h])
        cases hp : parseEbonLine l with
        | none =>
          simp [purchLines, hs', hz, hz', List.takeWhile_cons,
            List.filter_cons, parseAll, hp, ih]
        | some p =>
          simp [purchLines, hs', hz, hz', List.takeWhile_cons,
            List.filter_cons, parseAll, hp, ih]

/-! ## Names in the aggregator output -/

theorem purchaseNameLe_trans (a b c : Purchase)
    (h1 : purchaseNameLe a b = true) (h2 : purchaseNameLe b c = true) :
    purchaseNameLe a c = true :=
  pyStrLe_trans a.name b.name c.name h1 h2

theorem purchaseNameLe_total (a b : Purchase) :
    purchaseNameLe a b = true ∨ purchaseNameLe b a = true :=
  pyStrLe_total a.name b.name

theorem simplifyRuns_name_mem :
    ∀ (ps : List Purchase) (p : Purchase) (acc : ℚ) (x : Purchase),
      x ∈ simplifyRuns p acc ps →
      x.name = p.name ∨ ∃ r ∈ ps, x.name = r.name := by
  intro ps
  induction ps with
  | nil =>
    intro p acc x hx
    by_cases hp : 0 ≤ p.price
    · simp only [simplifyRuns, hp, if_true, List.mem_singleton] at hx
      exact Or.inl (by rw [hx])
    · simp [simplifyRuns, hp] at hx
  | cons q qs ih =>
    intro p acc x hx
    by_cases hk : sameKey p q = true
    · simp only [simplifyRuns, hk, if_true] at hx
      rcases ih p (acc + q.amount) x hx with h | ⟨r, hr, hxr⟩
      · exact Or.inl h
      · exact Or.inr ⟨r, List.mem_cons_of_mem q hr, hxr⟩
    · simp only [simplifyRuns, hk, Bool.false_eq_true, if_false,
        List.mem_append] at hx
      rcases hx with hx | hx
      · by_cases hp : 0 ≤ p.price
        · simp only [hp, if_true, List.mem_singleton] at hx
          exact Or.inl (by rw [hx])
        · simp [hp] at hx
      · rcases ih q q.amount x hx with h | ⟨r, hr, hxr⟩
        · exact Or.inr ⟨q, List.mem_cons_self q qs, h⟩
        · exact Or.inr ⟨r, List.mem_cons_of_mem q hr, hxr⟩

theorem simplifyRuns_pairwise_names :
    ∀ (ps : List Purchase) (p : Purchase) (acc : ℚ),
      (p :: ps).Pairwise (fun x y => purchaseNameLe x y = true) →
      (∀ x ∈ p :: ps, ∀ y ∈ p :: ps, x.name = y.name → x.price = y.price) →
      (simplifyRuns p acc ps).Pairwise (fun x y => x.name ≠ y.name) := by
  intro ps
  induction ps with
  | nil =>
    intro p acc _ _
    by_cases hp : 0 ≤ p.price <;> simp [simplifyRuns, hp]
  | cons q qs ih =>
    intro p acc hsort hdet
    by_cases hk : sameKey p q = true
    · simp only [simplifyRuns, hk, if_true]
      have hsub : (p :: qs).Sublist (p :: q :: qs) :=
        List.Sublist.cons₂ p (List.sublist_cons_self q qs)
      exact ih p (acc + q.amount) (hsort.sublist hsub)
        (fun x hx y hy => hdet x (hsub.subset hx) y (hsub.subset hy))
    · simp only [simplifyRuns, hk, Bool.false_eq_true, if_false]
      rw [List.pairwise_append]
      have hpq : p.name ≠ q.name := by
        intro heq
        have hpr : p.price = q.price :=
          hdet p (List.mem_cons_self p (q :: qs)) q
            (List.mem_cons_of_mem p (List.mem_cons_self q qs)) heq
        exact hk (decide_eq_true ⟨heq.symm, hpr.symm⟩)
      refine ⟨?_, ?_, ?_⟩
      · by_cases hp : 0 ≤ p.price <;> simp [hp]
      · exact ih q q.amount hsort.of_cons
          (fun x hx y hy => hdet x (List.mem_cons_of_mem p hx) y
            (List.mem_cons_of_mem p hy))
      · intro a ha b hb
        have haname : a.name = p.name := by
          by_cases hp : 0 ≤ p.price
          · simp only [hp, if_true, List.mem_singleton] at ha
            rw [ha]
          · simp [hp] at ha
        rw [List.pairwise_cons] at hsort
        have hle1 : purchaseNameLe p q = true :=
          hsort.1 q (List.mem_cons_self q qs)
        rcases simplifyRuns_name_mem qs q q.amount b hb with hbq | ⟨r, hr, hbr⟩
        · rw [haname, hbq]
          exact hpq
        · rw [haname, hbr]
          intro heq
          rw [List.pairwise_cons] at hsort
          have hle2 : purchaseNameLe q r = true := hsort.2.1 r hr
          have : p.name = q.name := by
            apply pyStrLe_antisymm p.name q.name hle1
            have : pyStrLe q.name r.name = true := hle2
            rw [← heq] at this
            exact this
          exact hpq this

/-! ## The claims -/

/-- C1, as stated, is false of the code: `simplify` sorts by *name only*
and `itertools.groupby` merges only consecutive equal keys, so two
same-name-same-price lines separated by a same-name line at a different
price yield two output entries sharing `(name, price)`. -/
theorem C1_counterexample :
    ¬ (simplify [⟨1, 1, "A"⟩, ⟨1, 2, "A"⟩, ⟨1, 1, "A"⟩]).Pairwise
      (fun p q => ¬(p.name = q.name ∧ p.price = q.price)) := by
  decide

/-- C1 (amended): for every input sequence in which lines sharing a name
also share a price, the output of `simplify` contains at most one
`Purchase` per distinct `(name, price)` pair — no two output elements
share both name and price. -/
theorem C1_theorem (items : List Purchase)
    (hdet : ∀ p ∈ items, ∀ q ∈ items, p.name = q.name → p.price = q.price) :
    (simplify items).Pairwise
      (fun p q => ¬(p.name = q.name ∧ p.price = q.price)) := by
  unfold simplify
  cases h : insortLe purchaseNameLe items with
  | nil => exact List.Pairwise.nil
  | cons p ps =>
    have hsort :=
      insortLe_pairwise purchaseNameLe_trans purchaseNameLe_total items
    rw [h] at hsort
    have hmem : ∀ x ∈ p :: ps, x ∈ items := by
      intro x hx
      exact (insortLe_perm purchaseNameLe items).subset (h ▸ hx)
    exact (simplifyRuns_pairwise_names ps p p.amount hsort
      (fun x hx y hy => hdet x (hmem x hx) y (hmem y hy))).imp
      (fun hne hand => hne hand.1)

/-- Witness for C1 (amended) at a concrete input with a duplicated line. -/
theorem C1_witness :
    (simplify [⟨1, 1, "Milch"⟩, ⟨1, 2, "Mehl"⟩, ⟨1, 1, "Milch"⟩]).Pairwise
      (fun p q => ¬(p.name = q.name ∧ p.price = q.price)) :=
  C1_theorem _ (by decide)

/-- C2: `simplify` preserves the total amount of every non-negative-price
`(name, price)` group, and no negative-price line survives into the
output — every output element has non-negative price, so dropped groups
are dropped whole and never netted against others. -/
theorem C2_theorem (items : List Purchase) (name : String) (price : ℚ) :
    (0 ≤ price →
      keyAmount name price (simplify items) = keyAmount name price items) ∧
    (∀ p ∈ simplify items, 0 ≤ p.price) :=
  ⟨fun h => simplify_keyAmount items name price h,
   fun p hp => simplify_price_nonneg items p hp⟩

/-- Witness for C2 at a concrete input with a voucher line. -/
theorem C2_witness :
    keyAmount "Milch" 1
        (simplify [⟨1, 1, "Milch"⟩, ⟨1, -2, "Punkte-Gutschein"⟩])
      = keyAmount "Milch" 1 [⟨1, 1, "Milch"⟩, ⟨1, -2, "Punkte-Gutschein"⟩] :=
  (C2_theorem [⟨1, 1, "Milch"⟩, ⟨1, -2, "Punkte-Gutschein"⟩] "Milch" 1).1
    (by decide)

/-- C3: the pending calls are executed one at a time in list order; when
the `k`-th write fails while all earlier ones succeeded, the catalog has
recorded exactly the first `k` calls — the later items are never
submitted and the earlier ones are not undone. -/
theorem C3_theorem (convs : List GrocyQUnitConvertion)
    (barcodes : String → Option GrocyProductBarCode)
    (products : ℕ → Option GrocyProduct) (loc : ℕ) (ok : ℕ → Bool)
    (groceries : List Purchase) (calls : List SubmitCall) (k : ℕ)
    (hp : prepare convs barcodes products loc groceries = .ok calls)
    (hk : k < calls.length) (hfail : ok k = false)
    (hprev : ∀ j, j < k → ok j = true) :
    importPurchase convs barcodes products loc ok groceries
      = (calls.take k, some (.submission (calls.get ⟨k, hk⟩))) := by
  unfold importPurchase
  rw [hp]
  exact submitCalls_take ok calls 0 k hk
    (fun j hj => by simpa using hprev j hj) (by simpa using hfail)

/-- Witness for C3: two items, the second write rejected. -/
theorem C3_witness :
    importPurchase []
        (fun n => if n = "A" then some ⟨10, 5, 1⟩
          else if n = "B" then some ⟨11, 5, 2⟩ else none)
        (fun i => if i = 10 then some ⟨5⟩
          else if i = 11 then some ⟨5⟩ else none)
        9 (fun j => decide (j = 0)) [⟨1, 3, "A"⟩, ⟨1, 4, "B"⟩]
      = ([⟨10, 1 * 1 * 1, 3 / 1, 9⟩],
         some (.submission ⟨11, 1 * 2 * 1, 4 / 1, 9⟩)) :=
  C3_theorem []
    (fun n => if n = "A" then some ⟨10, 5, 1⟩
      else if n = "B" then some ⟨11, 5, 2⟩ else none)
    (fun i => if i = 10 then some ⟨5⟩
      else if i = 11 then some ⟨5⟩ else none)
    9 (fun j => decide (j = 0)) [⟨1, 3, "A"⟩, ⟨1, 4, "B"⟩]
    [⟨10, 1 * 1 * 1, 3 / 1, 9⟩, ⟨11, 1 * 2 * 1, 4 / 1, 9⟩] 1
    rfl (by decide) rfl (by decide)

/-- C4: whenever the reconciliation loop exits after `k` fetches, the
`k`-th alias map contains every purchase name and every earlier map was
missing some name (so the operator was prompted before every re-fetch);
and when the first map is already complete the loop exits at once,
without prompting. -/
theorem C4_theorem (fetches : ℕ → String → Bool) (names : List String)
    (fuel k : ℕ) :
    (reconcileLoop fetches names fuel 0 = some k →
      names.all (fetches k) = true ∧
      ∀ j, j < k → names.all (fetches j) = false) ∧
    (names.all (fetches 0) = true → 0 < fuel →
      reconcileLoop fetches names fuel 0 = some 0) := by
  constructor
  · intro h
    obtain ⟨-, h2, h3⟩ := reconcileLoop_invariant fetches names fuel 0 k h
    exact ⟨h2, fun j hj => h3 j (Nat.zero_le j) hj⟩
  · intro hall hfuel
    cases fuel with
    | zero => exact absurd hfuel (lt_irrefl 0)
    | succ fuel => simp [reconcileLoop, hall]

/-- Witness for C4: one name, missing from the first map and present in
the map returned by the first re-fetch; the loop exits at fetch 1. -/
theorem C4_witness :
    ["Milch"].all ((fun (i : ℕ) (_ : String) => decide (1 ≤ i)) 1) = true :=
  ((C4_theorem (fun i _ => decide (1 ≤ i)) ["Milch"] 3 1).1 rfl).1

/-- C5: when preparation succeeds, one call is pending per purchase, and
the `i`-th call records the resolved product with stock amount
`purchase.amount * alias.amount_multiplier * factor(alias.purchase_unit,
product.stock_unit, alias.product)` and unit price
`purchase.price / purchase.amount` (amounts being nonzero as
precondition). -/
theorem C5_theorem (convs : List GrocyQUnitConvertion)
    (barcodes : String → Option GrocyProductBarCode)
    (products : ℕ → Option GrocyProduct) (loc : ℕ)
    (groceries : List Purchase) (calls : List SubmitCall)
    (hp : prepare convs barcodes products loc groceries = .ok calls)
    (_hnz : ∀ p ∈ groceries, p.amount ≠ 0) :
    calls.length = groceries.length ∧
    ∀ i (hi : i < groceries.length) (hc : i < calls.length),
      ∃ pro prod f,
        barcodes (groceries.get ⟨i, hi⟩).name = some pro ∧
        products pro.product_id = some prod ∧
        convert_unit convs pro.qu_id prod.qu_id_stock (some pro.product_id)
          = .ok f ∧
        calls.get ⟨i, hc⟩
          = ⟨pro.product_id,
             (groceries.get ⟨i, hi⟩).amount * pro.amount * f,
             (groceries.get ⟨i, hi⟩).price / (groceries.get ⟨i, hi⟩).amount,
             loc⟩ :=
  prepare_get convs barcodes products loc groceries calls hp

/-- Witness for C5 at a one-item batch. -/
theorem C5_witness :
    ([(⟨10, 1 * 1 * 1, 3 / 1, 9⟩ : SubmitCall)]).length
      = ([(⟨1, 3, "A"⟩ : Purchase)]).length :=
  (C5_theorem [] (fun n => if n = "A" then some ⟨10, 5, 1⟩ else none)
    (fun i => if i = 10 then some ⟨5⟩ else none) 9
    [⟨1, 3, "A"⟩] [⟨10, 1 * 1 * 1, 3 / 1, 9⟩] rfl (by decide)).1

/-- C6: with distinct units and at least one matching entry,
`convert_unit` returns the factor of a matching entry; that entry never
carries a foreign product id, and whenever some matching entry is
product-specific the selected one is product-specific. -/
theorem C6_theorem (convs : List GrocyQUnitConvertion) (f t : ℕ)
    (pid : Option ℕ) (hne : f ≠ t)
    (hm : matchingConversions convs f t pid ≠ []) :
    ∃ c ∈ matchingConversions convs f t pid,
      convert_unit convs f t pid = .ok c.factor ∧
      (c.product_id = none ∨ c.product_id = pid) ∧
      ((∃ d ∈ matchingConversions convs f t pid, d.product_id ≠ none) →
        c.product_id ≠ none) := by
  unfold convert_unit
  rw [if_neg hne]
  cases hs : insortLe convLe (matchingConversions convs f t pid) with
  | nil =>
    have := insortLe_perm convLe (matchingConversions convs f t pid)
    rw [hs] at this
    exact absurd this.symm.eq_nil hm
  | cons c rest =>
    have hcmem : c ∈ matchingConversions convs f t pid :=
      (insortLe_perm convLe _).subset (hs ▸ List.mem_cons_self c rest)
    have hmin := insortLe_head_min convLe_trans convLe_total hs
    have hpred := List.of_mem_filter hcmem
    simp only [Bool.and_eq_true, Bool.or_eq_true, decide_eq_true_eq] at hpred
    refine ⟨c, hcmem, rfl, hpred.2, ?_⟩
    rintro ⟨d, hd, hdnn⟩ hcn
    have hled := hmin d hd
    unfold convLe at hled
    rw [decide_eq_true hcn] at hled
    simp only [Bool.not_true, Bool.false_or, decide_eq_true_eq] at hled
    exact hdnn hled

/-- Witness for C6 at the spec's example conversion table. -/
theorem C6_witness :
    ∃ c ∈ matchingConversions
        [⟨7, 42, some 121, 7 / 2⟩, ⟨7, 42, none, 3 / 2⟩] 7 42 (some 121),
      convert_unit [⟨7, 42, some 121, 7 / 2⟩, ⟨7, 42, none, 3 / 2⟩]
          7 42 (some 121) = .ok c.factor ∧
      (c.product_id = none ∨ c.product_id = some 121) ∧
      ((∃ d ∈ matchingConversions
          [⟨7, 42, some 121, 7 / 2⟩, ⟨7, 42, none, 3 / 2⟩] 7 42 (some 121),
          d.product_id ≠ none) → c.product_id ≠ none) :=
  C6_theorem [⟨7, 42, some 121, 7 / 2⟩, ⟨7, 42, none, 3 / 2⟩] 7 42 (some 121)
    (by decide) (by decide)

/-- C7: `convert_unit` fails with the error naming the two unit ids and
the product id exactly when the unit ids differ and no entry matches —
in particular no default factor is returned then. -/
theorem C7_theorem (convs : List GrocyQUnitConvertion) (f t : ℕ)
    (pid : Option ℕ) :
    convert_unit convs f t pid = .error ⟨f, t, pid⟩ ↔
      (f ≠ t ∧ matchingConversions convs f t pid = []) := by
  unfold convert_unit
  by_cases h : f = t
  · simp [h]
  · rw [if_neg h]
    cases hs : insortLe convLe (matchingConversions convs f t pid) with
    | nil =>
      have := insortLe_perm convLe (matchingConversions convs f t pid)
      rw [hs] at this
      simp [this.symm.eq_nil, h]
    | cons c rest =>
      have hm : matchingConversions convs f t pid ≠ [] := by
        intro h0
        rw [h0] at hs
        simp [insortLe] at hs
      simp [hm]

/-- Witness for C7: an entry for a different unit pair does not match. -/
theorem C7_witness :
    convert_unit [⟨1, 2, none, 5⟩] 7 42 none = .error ⟨7, 42, none⟩ :=
  (C7_theorem [⟨1, 2, none, 5⟩] 7 42 none).mpr (by decide)

/-- C8: with equal unit ids `convert_unit` returns `1` for every
conversion table and every product, without consulting the table. -/
theorem C8_theorem (convs : List GrocyQUnitConvertion) (pid : Option ℕ)
    (u : ℕ) : convert_unit convs u u pid = .ok 1 := by
  simp [convert_unit]

/-- C9: the receipt loop drops the first line, stops at the first
`'SUMME '` line, skips empty lines and parses each remaining line; on
the doctest receipt it yields exactly the three purchases with the
`Nx` multiplier expanded into the amount, and the multiplier-prefixed
milk line parses to amount 4, price 5.00 and the bare product name. -/
theorem C9_theorem :
    (∀ lines, purchLines lines
      = parseAll ((lines.takeWhile
          (fun l => !(startsWithList "SUMME ".data l))).filter
          (fun l => !(decide (l.length = 0))))) ∧
    Ebon_get_purchases dmReceipt
      = some [⟨1, priceVal 0 10, "Kodak Artikel Sofort"⟩,
              ⟨4, priceVal 5 0, "dmBio Milch 1,5% 1L"⟩,
              ⟨2, priceVal 3 90, "Dental Delight ZC Pola"⟩] ∧
    parseEbonLine dmMilkLine.data
      = some ⟨4, priceVal 5 0, "dmBio Milch 1,5% 1L"⟩ :=
  ⟨purchLines_pipeline, by rfl, by rfl⟩

/-- C10: all conversion factors are computed while building the pending
calls, before any write; hence an import that fails with a unit
conversion error has recorded nothing in the catalog. -/
theorem C10_theorem (convs : List GrocyQUnitConvertion)
    (barcodes : String → Option GrocyProductBarCode)
    (products : ℕ → Option GrocyProduct) (loc : ℕ) (ok : ℕ → Bool)
    (groceries : List Purchase) (e : UnitConversionError)
    (h : (importPurchase convs barcodes products loc ok groceries).2
      = some (.unitConversion e)) :
    (importPurchase convs barcodes products loc ok groceries).1 = [] := by
  unfold importPurchase at h ⊢
  cases hp : prepare convs barcodes products loc groceries with
  | error e2 => rfl
  | ok calls =>
    rw [hp] at h
    rcases submitCalls_error_shape ok calls 0 with h2 | ⟨c, h2⟩
    · rw [h2] at h
      cases h
    · rw [h2] at h
      simp at h

/-- Witness for C10: a missing conversion aborts before any write. -/
theorem C10_witness :
    (importPurchase [] (fun n => if n = "A" then some ⟨10, 5, 1⟩ else none)
      (fun i => if i = 10 then some ⟨6⟩ else none) 9 (fun _ => true)
      [⟨1, 3, "A"⟩]).1 = [] :=
  C10_theorem [] (fun n => if n = "A" then some ⟨10, 5, 1⟩ else none)
    (fun i => if i = 10 then some ⟨6⟩ else none) 9 (fun _ => true)
    [⟨1, 3, "A"⟩] ⟨5, 6, some 10⟩ rfl
